import Mathlib

/-!
Verification of the hyperx typed-header codec core against its
natural-language specification.

The development shallowly embeds the relevant Rust source files:

* `src/header/internals/cell.rs` — `OptCell` (single-assignment cell) and
  `PtrMapCell` (heterogeneous type-keyed cache);
* `src/header/common/referrer_policy.rs` — rightmost-wins token resolution;
* `src/header/common/cookie.rs` — `Cookie` set/append/get/format/parse;
* `src/header/common/preference_applied.rs` — parameter-stripping format;
* `src/header/common/last_event_id.rs` and
  `src/header/common/access_control_allow_credentials.rs` — single-line
  header parsing;
* the generic comma-delimited list and quality-value codecs.

Helpers of the repository that are not part of the provided sources
(`header/parsing.rs`, `QualityItem`, `VecMap`, `RawLike::one`) are modelled
from the specification; each such definition carries a doc comment starting
with `Modelled from the spec:`.

Rust `TypeId` values are modelled as `Nat`, byte strings as `List Nat`,
text as `List Char`.  Interior mutability (`UnsafeCell`) is modelled by
explicit state passing: an operation takes the cell's current contents and
returns the new contents.  A `debug_assert!` failure (a panic) is modelled
as `none`/`Except.error`.
-/

namespace Hyperx

/-! ### `OptCell` (src/header/internals/cell.rs, lines 7–44)

`OptCell<T>` wraps `UnsafeCell<Option<T>>`.  Its state is the contained
`Option T`.  `set` is embedded twice, once per build profile, because
`debug_assert!` is compiled out of release builds:

* `OptCell.set` — release semantics: the `debug_assert!` is absent and the
  store `*opt = Some(val)` happens unconditionally;
* `OptCell.setChecked` — debug semantics: `debug_assert!((*opt).is_none())`
  panics (modelled `none`) when a value is already present, otherwise the
  store happens.
-/

/-- `OptCell::new(val)` — the initial contents are exactly `val`. -/
def OptCell.new {T : Type} (val : Option T) : Option T := val

/-- `OptCell::set` as compiled in release mode: `*opt = Some(val)`,
with the `debug_assert!` removed by the compiler. -/
def OptCell.set {T : Type} (_c : Option T) (val : T) : Option T := some val

/-- `OptCell::set` as compiled in debug mode:
`debug_assert!((*opt).is_none()); *opt = Some(val)`.  The assertion failure
(panic) is modelled as `none`; a normal return carries the new contents. -/
def OptCell.setChecked {T : Type} (c : Option T) (val : T) : Option (Option T) :=
  if c.isSome then none else some (some val)

/-- `Deref for OptCell` — reading the cell yields the contained option. -/
def OptCell.deref {T : Type} (c : Option T) : Option T := c

/-! ### `PtrMapCell` (src/header/internals/cell.rs, lines 46–152)

`PtrMapCell<V>` wraps `UnsafeCell<PtrMap<Box<V>>>`.  `TypeId` is modelled
as `Nat`; `Box<V>` as `V`.  The `HashMap<TypeId, T>` backing the `Many`
state is modelled as an association list with insert-replaces semantics
(`hmInsert` / `hmGet`); `get` never depends on iteration order, so the
list model is faithful. -/

/-- The `PtrMap` enum: `Empty`, `One(TypeId, T)`, `Many(HashMap<TypeId, T>)`. -/
inductive PtrMap (V : Type) where
  | Empty : PtrMap V
  | One : Nat → V → PtrMap V
  | Many : List (Nat × V) → PtrMap V
deriving DecidableEq

/-- `HashMap::get(&key)` on the association-list model of the hash map. -/
def hmGet {V : Type} (hm : List (Nat × V)) (key : Nat) : Option V :=
  match hm with
  | [] => none
  | (k, v) :: rest => if k = key then some v else hmGet rest key

/-- `HashMap::insert(key, val)` on the association-list model: replaces the
existing entry for `key` when present, otherwise adds a new entry. -/
def hmInsert {V : Type} (hm : List (Nat × V)) (key : Nat) (val : V) :
    List (Nat × V) :=
  match hm with
  | [] => [(key, val)]
  | (k, v) :: rest =>
    if k = key then (key, val) :: rest else (k, v) :: hmInsert rest key val

/-- `PtrMapCell::get(key)` (cell.rs lines 67–81). -/
def PtrMapCell.get {V : Type} (m : PtrMap V) (key : Nat) : Option V :=
  match m with
  | .Empty => none
  | .One id v => if id = key then some v else none
  | .Many hm => hmGet hm key

/-- `PtrMapCell::insert(key, val)` (cell.rs lines 121–142).  In the `One`
case release builds skip the `debug_assert_ne!` and always promote to
`Many`, seeding the map with the prior entry and then the new one. -/
def PtrMapCell.insert {V : Type} (m : PtrMap V) (key : Nat) (val : V) :
    PtrMap V :=
  match m with
  | .Empty => .One key val
  | .One id one => .Many (hmInsert (hmInsert [] id one) key val)
  | .Many hm => .Many (hmInsert hm key val)

/-- `PtrMapCell::one()` (cell.rs lines 145–151): returns the single stored
value in the `One` state; any other state hits `panic!`, modelled `none`. -/
def PtrMapCell.one {V : Type} (m : PtrMap V) : Option V :=
  match m with
  | .One _ v => some v
  | _ => none

/-- `PtrMapCell::into_value(key)` (cell.rs lines 101–118). -/
def PtrMapCell.intoValue {V : Type} (m : PtrMap V) (key : Nat) : Option V :=
  match m with
  | .Empty => none
  | .One id v => if id = key then some v else none
  | .Many hm => hmGet hm key

/-- Whether the cache holds an entry for `key` (i.e. `get` succeeds). -/
def PtrMapCell.hasKey {V : Type} (m : PtrMap V) (key : Nat) : Bool :=
  (PtrMapCell.get m key).isSome

/-- Structural rank of the cache state: Empty < One < Many.  Used to state
that transitions only move forward. -/
def PtrMapCell.rank {V : Type} (m : PtrMap V) : Nat :=
  match m with
  | .Empty => 0
  | .One _ _ => 1
  | .Many _ => 2

/-! ### Text utilities

Rust `str::split(sep)` and `str::trim`, embedded on `List Char`. -/

/-- Rust `str::split(sep)`: splits at every occurrence of `sep`; adjacent
separators and separators at the ends produce empty segments, and the empty
input yields one empty segment, exactly as in Rust. -/
def splitSep (sep : Char) : List Char → List (List Char)
  | [] => [[]]
  | c :: cs =>
    if c = sep then [] :: splitSep sep cs
    else
      match splitSep sep cs with
      | [] => [[c]]
      | s :: ss => (c :: s) :: ss

/-- Whitespace as used by `str::trim` on the ASCII inputs of this
development. -/
def isWs (c : Char) : Bool :=
  c = ' ' ∨ c = '\t' ∨ c = '\n' ∨ c = '\r'

/-- Rust `str::trim`: removes leading and trailing whitespace. -/
def trimChars (l : List Char) : List Char :=
  ((l.dropWhile isWs).reverse.dropWhile isWs).reverse

/-! ### Comma-delimited list codec

`parsing::from_comma_delimited` lives in `header/parsing.rs`, which is not
among the provided sources. -/

/-- Modelled from the spec: the top-level comma split of
`header/parsing.rs` (not under the provided sources), per §4.3/§4.4:
tokens are delimited by `,`, but a comma inside a quoted string
(`"..."`, with backslash escapes) is literal and does not split.  The
boolean argument tracks whether the scanner is inside a quoted string. -/
def splitCommaQ : Bool → List Char → List (List Char)
  | _, [] => [[]]
  | inQ, c :: cs =>
    if !inQ ∧ c = ',' then [] :: splitCommaQ false cs
    else if c = '"' then
      match splitCommaQ (!inQ) cs with
      | [] => [[c]]
      | s :: ss => (c :: s) :: ss
    else if inQ ∧ c = '\\' then
      match cs with
      | [] => [[c]]
      | d :: ds =>
        match splitCommaQ inQ ds with
        | [] => [[c, d]]
        | s :: ss => (c :: d :: s) :: ss
    else
      match splitCommaQ inQ cs with
      | [] => [[c]]
      | s :: ss => (c :: s) :: ss

/-- Modelled from the spec: `parsing::from_comma_delimited` (not under the
provided sources), per §4.3: each raw line is split on top-level commas,
each token is trimmed, and empty tokens (from consecutive commas or an
empty line) are skipped; an empty raw field decodes to the empty list. -/
def fromCommaDelimited (lines : List (List Char)) : List (List Char) :=
  lines.flatMap (fun l =>
    ((splitCommaQ false l).map trimChars).filter (fun t => ¬ t = []))

/-! ### `ReferrerPolicy` (src/header/common/referrer_policy.rs) -/

/-- The `ReferrerPolicy` enum (referrer_policy.rs lines 36–53). -/
inductive ReferrerPolicy where
  | NoReferrer
  | NoReferrerWhenDowngrade
  | SameOrigin
  | Origin
  | OriginWhenCrossOrigin
  | UnsafeUrl
  | StrictOrigin
  | StrictOriginWhenCrossOrigin
deriving DecidableEq

/-- One arm of the `match` in `ReferrerPolicy::parse_header` (lines 70–81):
lowercases the token with `to_ascii_lowercase` and matches it against the
known policy names, `none` for the `_ => continue` arm. -/
def policyOfToken (t : List Char) : Option ReferrerPolicy :=
  let s := t.map Char.toLower
  if s = "no-referrer".toList ∨ s = "never".toList then
    some .NoReferrer
  else if s = "no-referrer-when-downgrade".toList ∨ s = "default".toList then
    some .NoReferrerWhenDowngrade
  else if s = "same-origin".toList then some .SameOrigin
  else if s = "origin".toList then some .Origin
  else if s = "origin-when-cross-origin".toList then some .OriginWhenCrossOrigin
  else if s = "strict-origin".toList then some .StrictOrigin
  else if s = "strict-origin-when-cross-origin".toList then
    some .StrictOriginWhenCrossOrigin
  else if s = "unsafe-url".toList ∨ s = "always".toList then some .UnsafeUrl
  else none

/-- `ReferrerPolicy::parse_header` (referrer_policy.rs lines 61–85):
decode the comma-delimited token list, scan it from last to first, return
the first recognized policy, and fail with `Error::Header` when no token is
recognized. -/
def ReferrerPolicy.parseHeader (lines : List (List Char)) :
    Except Unit ReferrerPolicy :=
  let headers := fromCommaDelimited lines
  match headers.reverse.findSome? policyOfToken with
  | some p => .ok p
  | none => .error ()

/-! ### Quality-value codec

`QualityItem` and `Quality` live in `header/shared/quality_item.rs`, which
is not among the provided sources; the codec is modelled from spec §4.3.
`Quality` is the fixed-point integer in `[0, 1000]`, modelled as `Nat`. -/

/-- Decimal digit character for `n < 10`. -/
def digitChar (n : Nat) : Char := Char.ofNat (48 + n)

/-- Strips trailing `'0'` characters. -/
def trimZeros (l : List Char) : List Char :=
  (l.reverse.dropWhile (fun c => c = '0')).reverse

/-- Modelled from the spec (§4.3): the decimal rendering of a non-default
quality `q < 1000`: `0` for zero, otherwise `0.` followed by up to three
fractional digits with trailing zeros trimmed. -/
def qDecimal (q : Nat) : List Char :=
  if q = 0 then ['0']
  else '0' :: '.' ::
    trimZeros [digitChar (q / 100), digitChar (q / 10 % 10), digitChar (q % 10)]

/-- Modelled from the spec (§4.3): encoding of a `QualityItem` whose item
renders as `item`: the item text followed by `;q=W`, the suffix omitted
entirely when the quality is the default 1000. -/
def fmtQualityItem (item : List Char) (q : Nat) : List Char :=
  item ++ (if q = 1000 then [] else ';' :: 'q' :: '=' :: qDecimal q)

/-- Character is an ASCII decimal digit. -/
def isDigit (c : Char) : Bool := '0' ≤ c ∧ c ≤ '9'

/-- Numeric value of up to three fractional digits, scaled to `[0, 1000]`
(`"5"` → 500, `"667"` → 667, `"03"` → 30). -/
def fracVal (ds : List Char) : Nat :=
  (ds.foldl (fun a d => a * 10 + (d.toNat - 48)) 0) * 10 ^ (3 - ds.length)

/-- Modelled from the spec (§4.3): parsing of a `q` parameter value, a
decimal in `[0, 1]` with at most three fractional digits, into the
fixed-point range `[0, 1000]`; anything else is a failure. -/
def parseQVal (l : List Char) : Option Nat :=
  match l with
  | '0' :: rest =>
    match rest with
    | [] => some 0
    | '.' :: ds =>
      if ds.length ≤ 3 ∧ ds.all isDigit then some (fracVal ds) else none
    | _ => none
  | '1' :: rest =>
    match rest with
    | [] => some 1000
    | '.' :: ds =>
      if ds.length ≤ 3 ∧ ds.all (fun c => c = '0') then some 1000 else none
    | _ => none
  | _ => none

/-- Modelled from the spec (§4.3): decoding of one list item: split on
`;`, the first segment (trimmed) is the item text; the remaining segments
are `key=value` parameters; a `q` key parses a fixed-point quality, a
missing `q` parameter means the default quality 1000, and a malformed `q`
value fails the item. -/
def decodeQualityItem (l : List Char) : Option (List Char × Nat) :=
  match splitSep ';' l with
  | [] => none
  | item :: params =>
    let item := trimChars item
    match params.findSome? (fun p =>
        let k := trimChars (p.takeWhile (fun c => ¬ c = '='))
        if k = ['q'] then
          some (trimChars ((p.dropWhile (fun c => ¬ c = '=')).drop 1))
        else none) with
    | none => some (item, 1000)
    | some qs => (parseQVal qs).map (fun q => (item, q))

/-! ### `VecMap` and `Cookie` (src/header/common/cookie.rs)

`VecMap` lives in `header/internals/vec_map.rs`, which is not among the
provided sources; it is modelled from the behaviour the spec and the
in-source doc comments and tests of cookie.rs pin down: an insertion-order
vector of key/value pairs. -/

/-- Modelled from the spec: `VecMap::get` (not under the provided
sources) — returns the value of the first entry whose key matches
(`Cookie::get` "Only returns the first instance found"). -/
def vmGet (m : List (List Char × List Char)) (k : List Char) :
    Option (List Char) :=
  match m with
  | [] => none
  | (k', v) :: rest => if k' = k then some v else vmGet rest k

/-- Modelled from the spec: `VecMap::append` (not under the provided
sources) — pushes the pair at the end, preserving insertion order. -/
def vmAppend (m : List (List Char × List Char)) (k v : List Char) :
    List (List Char × List Char) :=
  m ++ [(k, v)]

/-- Modelled from the spec: `VecMap::remove_all` (not under the provided
sources) — removes every entry whose key matches, keeping the rest in
order. -/
def vmRemoveAll (m : List (List Char × List Char)) (k : List Char) :
    List (List Char × List Char) :=
  m.filter (fun p => ¬ p.1 = k)

/-- Modelled from the spec: `VecMap::insert` (not under the provided
sources) — replaces the first entry with a matching key, or appends when
the key is absent (map-style insert, distinct from `append`). -/
def vmInsert (m : List (List Char × List Char)) (k v : List Char) :
    List (List Char × List Char) :=
  match m with
  | [] => [(k, v)]
  | (k', v') :: rest =>
    if k' = k then (k, v) :: rest else (k', v') :: vmInsert rest k v

/-- `Cookie` state: the `VecMap<Cow<str>, Cow<str>>` contents. -/
abbrev CookieMap := List (List Char × List Char)

/-- `Cookie::set` (cookie.rs lines 57–66): `remove_all(&key)` then
`append(key, value)`. -/
def Cookie.set (m : CookieMap) (k v : List Char) : CookieMap :=
  vmAppend (vmRemoveAll m k) k v

/-- `Cookie::append` (cookie.rs lines 81–87). -/
def Cookie.append (m : CookieMap) (k v : List Char) : CookieMap :=
  vmAppend m k v

/-- `Cookie::get` (cookie.rs lines 96–98): first instance only. -/
def Cookie.get (m : CookieMap) (k : List Char) : Option (List Char) :=
  vmGet m k

/-- `PartialEq for Cookie` (cookie.rs lines 158–171): equal lengths, and
every entry of `self` is found in `other` by `get` with the same value. -/
def cookieEq (a b : CookieMap) : Bool :=
  if a.length = b.length then
    a.all (fun p => decide (Cookie.get b p.1 = some p.2))
  else false

/-- Tail of `fmt::Display for Cookie` (cookie.rs lines 181–192): every
entry after the first is rendered as `; key=value`. -/
def Cookie.fmtRest : CookieMap → List Char
  | [] => []
  | (k, v) :: rest => ';' :: ' ' :: (k ++ '=' :: (v ++ Cookie.fmtRest rest))

/-- `fmt::Display for Cookie` (cookie.rs lines 181–192): `key=value`
pairs joined by `"; "`. -/
def Cookie.fmt : CookieMap → List Char
  | [] => []
  | (k, v) :: rest => k ++ '=' :: (v ++ Cookie.fmtRest rest)

/-- The body of the inner loop of `Cookie::parse_header` (cookie.rs lines
137–143): `splitn(2, '=')` on one `;`-segment; when a `=` is present the
trimmed key and trimmed remainder are yielded, otherwise the segment is
skipped. -/
def parseCookiePair (seg : List Char) : Option (List Char × List Char) :=
  match (seg.dropWhile (fun c => ¬ c = '=')) with
  | [] => none
  | _ :: v =>
    some (trimChars (seg.takeWhile (fun c => ¬ c = '=')), trimChars v)

/-- The body of the inner loop of `Cookie::parse_header`: process one
`;`-segment against the accumulated map — `vec_map.insert` when the
segment carries a `=`, skip otherwise. -/
def cookieStep (m : CookieMap) (seg : List Char) : CookieMap :=
  match parseCookiePair seg with
  | some (k, v) => vmInsert m k v
  | none => m

/-- One raw line of `Cookie::parse_header` (cookie.rs lines 135–144):
split on `;` and `vec_map.insert` each `key=value` segment.  The UTF-8
check of the original applies to byte input; this development works on
already-decoded text. -/
def Cookie.parseLine (m : CookieMap) (l : List Char) : CookieMap :=
  (splitSep ';' l).foldl cookieStep m

/-- `Cookie::parse_header` (cookie.rs lines 130–151): fold all raw lines
into the map; an empty result is `Error::Header`. -/
def Cookie.parseHeader (lines : List (List Char)) : Except Unit CookieMap :=
  let m := lines.foldl Cookie.parseLine []
  if m.length ≠ 0 then .ok m else .error ()

/-! ### `PreferenceApplied` (src/header/common/preference_applied.rs) -/

/-- The `Preference` enum of `header/common/preference.rs` (not among the
provided sources), reduced to the shape the provided sources exercise. -/
inductive Preference where
  | RespondAsync
  | ReturnRepresentation
  | ReturnMinimal
  | Wait (secs : Nat)
  | Extension (name value : List Char)
      (params : List (List Char × List Char))
deriving DecidableEq

/-- Decimal rendering of a natural number. -/
def natChars (n : Nat) : List Char := (Nat.toDigits 10 n)

/-- Modelled from the spec: `fmt::Display for Preference` (not under the
provided sources), per the doc examples of preference_applied.rs:
`respond-async`, `return=representation`, `return=minimal`, `wait=N`, and
an extension as `name=value` followed by `; pname=pvalue` for each
parameter (values omitted when empty). -/
def Preference.fmt : Preference → List Char
  | .RespondAsync => "respond-async".toList
  | .ReturnRepresentation => "return=representation".toList
  | .ReturnMinimal => "return=minimal".toList
  | .Wait secs => "wait=".toList ++ natChars secs
  | .Extension name value params =>
    (name ++ (if value = [] then [] else '=' :: value)) ++
      params.flatMap (fun p =>
        ';' :: ' ' :: (p.1 ++ (if p.2 = [] then [] else '=' :: p.2)))

/-- Modelled from the spec: `parsing::fmt_comma_delimited` (not under the
provided sources) — the rendered items joined by `", "`. -/
def fmtCommaDelimited (items : List (List Char)) : List Char :=
  List.intercalate (", ".toList) items

/-- `fmt::Display for PreferenceApplied` (preference_applied.rs lines
84–100): each `Preference::Extension` has its parameters replaced by the
empty list ("The spec ignores parameters in `Preferences-Applied`"), then
the list is comma-delimited. -/
def PreferenceApplied.fmt (prefs : List Preference) : List Char :=
  fmtCommaDelimited ((prefs.map (fun pref =>
    match pref with
    | .Extension name value _ => Preference.Extension name value []
    | p => p)).map Preference.fmt)

/-! ### Byte-level single-line headers

`LastEventId` and `AccessControlAllowCredentials` read raw bytes; bytes
are modelled as `Nat`. -/

/-- Modelled from the spec: `RawLike::one` (not under the provided
sources) — yields the only line when the raw field consists of exactly one
line, `None` otherwise (the in-source test `only_single` pins the
two-line case to a failure). -/
def rawOne (lines : List (List Nat)) : Option (List Nat) :=
  match lines with
  | [l] => some l
  | _ => none

/-- UTF-8 validity of a byte sequence, as checked by Rust
`str::from_utf8`. -/
def validUtf8 : List Nat → Bool
  | [] => true
  | b :: rest =>
    if b < 128 then validUtf8 rest
    else if 194 ≤ b ∧ b ≤ 223 then
      match rest with
      | c1 :: r => (128 ≤ c1 ∧ c1 ≤ 191) ∧ validUtf8 r
      | [] => false
    else if b = 224 then
      match rest with
      | c1 :: c2 :: r =>
        (160 ≤ c1 ∧ c1 ≤ 191) ∧ (128 ≤ c2 ∧ c2 ≤ 191) ∧ validUtf8 r
      | _ => false
    else if (225 ≤ b ∧ b ≤ 236) ∨ b = 238 ∨ b = 239 then
      match rest with
      | c1 :: c2 :: r =>
        (128 ≤ c1 ∧ c1 ≤ 191) ∧ (128 ≤ c2 ∧ c2 ≤ 191) ∧ validUtf8 r
      | _ => false
    else if b = 237 then
      match rest with
      | c1 :: c2 :: r =>
        (128 ≤ c1 ∧ c1 ≤ 159) ∧ (128 ≤ c2 ∧ c2 ≤ 191) ∧ validUtf8 r
      | _ => false
    else if b = 240 then
      match rest with
      | c1 :: c2 :: c3 :: r =>
        (144 ≤ c1 ∧ c1 ≤ 191) ∧ (128 ≤ c2 ∧ c2 ≤ 191) ∧
          (128 ≤ c3 ∧ c3 ≤ 191) ∧ validUtf8 r
      | _ => false
    else if 241 ≤ b ∧ b ≤ 243 then
      match rest with
      | c1 :: c2 :: c3 :: r =>
        (128 ≤ c1 ∧ c1 ≤ 191) ∧ (128 ≤ c2 ∧ c2 ≤ 191) ∧
          (128 ≤ c3 ∧ c3 ≤ 191) ∧ validUtf8 r
      | _ => false
    else if b = 244 then
      match rest with
      | c1 :: c2 :: c3 :: r =>
        (128 ≤ c1 ∧ c1 ≤ 143) ∧ (128 ≤ c2 ∧ c2 ≤ 191) ∧
          (128 ≤ c3 ∧ c3 ≤ 191) ∧ validUtf8 r
      | _ => false
    else false

/-- `LastEventId::parse_header` (last_event_id.rs lines 39–48): exactly
one line; an empty line yields the empty "reset" id; a non-empty line must
be valid UTF-8 (`parsing::from_raw_str`, not under the provided sources,
is modelled from the spec as the UTF-8 decode, which for `String` cannot
otherwise fail); zero or several lines are `Error::Header`.  The decoded
id is represented by its byte sequence. -/
def LastEventId.parseHeader (lines : List (List Nat)) :
    Except Unit (List Nat) :=
  match rawOne lines with
  | some [] => .ok []
  | some l => if validUtf8 l then .ok l else .error ()
  | none => .error ()

/-- ASCII lowercasing of a byte, as used by `unicase::eq_ascii`. -/
def toLowerByte (b : Nat) : Nat := if 65 ≤ b ∧ b ≤ 90 then b + 32 else b

/-- The bytes of `"true"`. -/
def trueBytes : List Nat := [116, 114, 117, 101]

/-- `AccessControlAllowCredentials::parse_header`
(access_control_allow_credentials.rs lines 52–70): exactly one line whose
bytes equal `"true"` ASCII case-insensitively (`unicase::eq_ascii` over
the unchecked-UTF-8 view compares the raw bytes with case folded);
anything else is `Error::Header`. -/
def AccessControlAllowCredentials.parseHeader (lines : List (List Nat)) :
    Except Unit Unit :=
  match rawOne lines with
  | some l => if l.map toLowerByte = trueBytes then .ok () else .error ()
  | none => .error ()

/-! ### Quality-weighted list headers (AcceptEncoding, Te)

The `header!` macro instantiates the `#(item)` zero-or-more list shape for
`AcceptEncoding` and `Te`; the macro body is not among the provided
sources. -/

/-- Modelled from the spec: the `(QualityItem<T>)*` list parse used by
`Accept-Encoding` and `TE` (the `header!` macro body is not under the
provided sources), per §4.3: the comma-delimited tokens each decode as a
quality item, items that fail to decode are dropped, and the whole parse
of a zero-or-more header never fails — the empty field gives the empty
list. -/
def AcceptEncoding.parseHeader (lines : List (List Char)) :
    List (List Char × Nat) :=
  (fromCommaDelimited lines).filterMap decodeQualityItem

/-- Modelled from the spec: `TE` uses the same zero-or-more
quality-item list shape as `Accept-Encoding`. -/
def Te.parseHeader (lines : List (List Char)) : List (List Char × Nat) :=
  (fromCommaDelimited lines).filterMap decodeQualityItem

/-! ### Auxiliary forms used by the cookie round-trip development -/

/-- The keys of a cookie map, in order. -/
def cookieKeys (m : CookieMap) : List (List Char) := m.map Prod.fst

/-- The `;`-segments that `Cookie.fmt` produces for the entries after the
first: every later entry is rendered behind `"; "`, so its segment carries
one leading space. -/
def cookieSegsRest : CookieMap → List (List Char)
  | [] => []
  | (k, v) :: rest => (' ' :: (k ++ '=' :: v)) :: cookieSegsRest rest

/-- Well-formedness of one cookie entry for the canonical round-trip: the
key contains no `=` and no `;`, the value contains no `;`, and both are
already trimmed. -/
def cookieWf (p : List Char × List Char) : Prop :=
  '=' ∉ p.1 ∧ ';' ∉ p.1 ∧ ';' ∉ p.2 ∧
    trimChars p.1 = p.1 ∧ trimChars p.2 = p.2

instance (p : List Char × List Char) : Decidable (cookieWf p) := by
  unfold cookieWf; infer_instance

/-! ## Helper lemmas -/

theorem splitSep_ne_nil (sep : Char) (l : List Char) : splitSep sep l ≠ [] := by
  cases l with
  | nil => simp [splitSep]
  | cons c cs =>
    simp only [splitSep]
    split
    · simp
    · split <;> simp

theorem splitSep_cons_sep (sep : Char) (l : List Char) :
    splitSep sep (sep :: l) = [] :: splitSep sep l := by
  simp [splitSep]

theorem splitSep_cons_ne (sep c : Char) (l : List Char) (h : ¬ c = sep) :
    splitSep sep (c :: l) =
      (c :: (splitSep sep l).headI) :: (splitSep sep l).tail := by
  simp only [splitSep, if_neg h]
  cases hsp : splitSep sep l with
  | nil => exact absurd hsp (splitSep_ne_nil sep l)
  | cons s ss => simp

theorem splitSep_not_mem (sep : Char) (l : List Char) (h : sep ∉ l) :
    splitSep sep l = [l] := by
  induction l with
  | nil => rfl
  | cons c cs ih =>
    have hc : ¬ c = sep := fun hcs => h (hcs ▸ List.mem_cons_self c cs)
    rw [splitSep_cons_ne sep c cs hc,
      ih (fun hm => h (List.mem_cons_of_mem c hm))]
    simp

theorem splitSep_append (sep : Char) (s l : List Char) (h : sep ∉ s) :
    splitSep sep (s ++ l) =
      (s ++ (splitSep sep l).headI) :: (splitSep sep l).tail := by
  induction s with
  | nil =>
    cases hsp : splitSep sep l with
    | nil => exact absurd hsp (splitSep_ne_nil sep l)
    | cons a b => simp [hsp]
  | cons c cs ih =>
    have hc : ¬ c = sep := fun hcs => h (hcs ▸ List.mem_cons_self c cs)
    have h' : sep ∉ cs := fun hm => h (List.mem_cons_of_mem c hm)
    rw [List.cons_append, splitSep_cons_ne sep c _ hc, ih h']
    simp

theorem findSome?_append_none {α β : Type} (f : α → Option β)
    (l1 l2 : List α) (h : ∀ x ∈ l1, f x = none) :
    (l1 ++ l2).findSome? f = l2.findSome? f := by
  induction l1 with
  | nil => rfl
  | cons a as ih =>
    have ha : f a = none := h a (List.mem_cons_self a as)
    simp only [List.cons_append, List.findSome?, ha]
    exact ih fun x hx => h x (List.mem_cons_of_mem a hx)

theorem findSome?_cons_some {α β : Type} (f : α → Option β) (a : α)
    (l : List α) (b : β) (h : f a = some b) :
    (a :: l).findSome? f = some b := by
  simp [List.findSome?, h]

theorem takeWhile_append_all {p : Char → Bool} (k l : List Char)
    (h : ∀ c ∈ k, p c = true) :
    (k ++ l).takeWhile p = k ++ l.takeWhile p := by
  induction k with
  | nil => rfl
  | cons c cs ih =>
    simp only [List.cons_append, List.takeWhile_cons,
      h c (List.mem_cons_self c cs), if_true]
    rw [ih fun d hd => h d (List.mem_cons_of_mem c hd)]

theorem dropWhile_append_all {p : Char → Bool} (k l : List Char)
    (h : ∀ c ∈ k, p c = true) :
    (k ++ l).dropWhile p = l.dropWhile p := by
  induction k with
  | nil => rfl
  | cons c cs ih =>
    simp only [List.cons_append, List.dropWhile_cons,
      h c (List.mem_cons_self c cs), if_true]
    exact ih fun d hd => h d (List.mem_cons_of_mem c hd)

theorem trimChars_cons_space (l : List Char) :
    trimChars (' ' :: l) = trimChars l := by
  have hw : isWs ' ' = true := by decide
  simp [trimChars, List.dropWhile_cons, hw]

theorem vmGet_append_last (m : CookieMap) (k v : List Char)
    (h : ∀ p ∈ m, ¬ p.1 = k) : vmGet (m ++ [(k, v)]) k = some v := by
  induction m with
  | nil => simp [vmGet]
  | cons p ps ih =>
    obtain ⟨k', v'⟩ := p
    have hk : ¬ k' = k := h (k', v') (List.mem_cons_self _ _)
    simp only [List.cons_append, vmGet, if_neg hk]
    exact ih fun q hq => h q (List.mem_cons_of_mem _ hq)

theorem vmInsert_not_mem (m : CookieMap) (k v : List Char)
    (h : k ∉ cookieKeys m) : vmInsert m k v = m ++ [(k, v)] := by
  induction m with
  | nil => rfl
  | cons p ps ih =>
    obtain ⟨k', v'⟩ := p
    have hk : ¬ k' = k := by
      intro hkk
      exact h (by simp [cookieKeys, hkk])
    simp only [vmInsert, if_neg hk, List.cons_append]
    rw [ih (fun hm => h (by simp [cookieKeys] at hm ⊢; exact Or.inr hm))]

/-! ## Claim theorems -/

/-- C1: `PtrMapCell` structural transitions: inserting into `Empty` gives
`One`; inserting a second, differently-keyed entry into `One` gives `Many`
with both entries retrievable by their keys; `get` of an absent key is
`none` in every state; and under the caller's uniqueness precondition the
rank Empty→Single→Multi never decreases. -/
theorem ptrMapCell_state_machine {V : Type} (k k' : Nat) (v v' : V)
    (m : PtrMap V) (hne : k' ≠ k) (habs : PtrMapCell.hasKey m k' = false) :
    PtrMapCell.insert PtrMap.Empty k v = PtrMap.One k v
  ∧ PtrMapCell.insert (PtrMap.One k v) k' v' = PtrMap.Many [(k, v), (k', v')]
  ∧ PtrMapCell.get (PtrMapCell.insert (PtrMap.One k v) k' v') k = some v
  ∧ PtrMapCell.get (PtrMapCell.insert (PtrMap.One k v) k' v') k' = some v'
  ∧ PtrMapCell.get m k' = none
  ∧ PtrMapCell.rank m ≤ PtrMapCell.rank (PtrMapCell.insert m k v) := by
  have hkk : ¬ k = k' := fun hk => hne hk.symm
  refine ⟨rfl, ?_, ?_, ?_, ?_, ?_⟩
  · simp [PtrMapCell.insert, hmInsert, hkk]
  · simp [PtrMapCell.insert, PtrMapCell.get, hmInsert, hmGet, hkk]
  · simp [PtrMapCell.insert, PtrMapCell.get, hmInsert, hmGet, hkk]
  · cases hg : PtrMapCell.get m k' with
    | none => rfl
    | some x =>
      exfalso
      unfold PtrMapCell.hasKey at habs
      rw [hg] at habs
      simp at habs
  · cases m <;> simp [PtrMapCell.insert, PtrMapCell.rank]

/-- Witness for C1 at concrete keys 0, 1 and values 10, 20 on the empty
cache. -/
theorem ptrMapCell_state_machine_w :
    PtrMapCell.insert PtrMap.Empty 0 (10 : Nat) = PtrMap.One 0 10
  ∧ PtrMapCell.insert (PtrMap.One 0 (10 : Nat)) 1 20 =
      PtrMap.Many [(0, 10), (1, 20)]
  ∧ PtrMapCell.get (PtrMapCell.insert (PtrMap.One 0 (10 : Nat)) 1 20) 0 =
      some 10
  ∧ PtrMapCell.get (PtrMapCell.insert (PtrMap.One 0 (10 : Nat)) 1 20) 1 =
      some 20
  ∧ PtrMapCell.get (PtrMap.Empty : PtrMap Nat) 1 = none
  ∧ PtrMapCell.rank (PtrMap.Empty : PtrMap Nat) ≤
      PtrMapCell.rank (PtrMapCell.insert PtrMap.Empty 0 (10 : Nat)) :=
  ptrMapCell_state_machine 0 1 10 20 PtrMap.Empty (by decide) (by decide)

/-- C7: `PtrMapCell::one` returns the single stored value in the `One`
state (the panic branch is unreachable there), and hits the panic branch
(modelled `none`) in the `Empty` and `Many` states. -/
theorem ptrMapCell_one_contract {V : Type} (k : Nat) (v : V)
    (hm : List (Nat × V)) :
    PtrMapCell.one (PtrMap.One k v) = some v
  ∧ PtrMapCell.one (PtrMap.Empty : PtrMap V) = none
  ∧ PtrMapCell.one (PtrMap.Many hm) = none :=
  ⟨rfl, rfl, rfl⟩

/-- C2 counterexample: in release builds (`debug_assert!` compiled out)
`OptCell::set` on an already-populated cell silently replaces the stored
value, so "a value that has become non-empty is never overwritten by any
operation" is false as stated. -/
theorem optCell_set_overwrites :
    OptCell.set (some 0) (1 : Nat) = some 1
  ∧ OptCell.set (some 0) (1 : Nat) ≠ some 0 :=
  ⟨rfl, by decide⟩

/-- C2 amended: reading after `new(None)` yields `None`; after `set v` on
an empty cell reading yields `Some v`; in debug builds a second `set`
panics at the `debug_assert!` (modelled `none`) and so never returns a
state with a replaced value, and `set` on an empty cell stores the value;
in release builds the overwrite is only prevented by the caller's
single-assignment precondition. -/
theorem optCell_single_assignment {T : Type} (t w : T) (c : Option T)
    (h : c.isSome = true) :
    OptCell.deref (OptCell.new (none : Option T)) = none
  ∧ OptCell.deref (OptCell.set (OptCell.new (none : Option T)) t) = some t
  ∧ OptCell.setChecked c w = none
  ∧ OptCell.setChecked (none : Option T) w = some (some w) := by
  refine ⟨rfl, rfl, ?_, rfl⟩
  simp [OptCell.setChecked, h]

/-- Witness for C2's amended theorem on a `Nat` cell holding 0. -/
theorem optCell_single_assignment_w :
    OptCell.deref (OptCell.new (none : Option Nat)) = none
  ∧ OptCell.deref (OptCell.set (OptCell.new (none : Option Nat)) 5) = some 5
  ∧ OptCell.setChecked (some 0) (7 : Nat) = none
  ∧ OptCell.setChecked (none : Option Nat) 7 = some (some 7) :=
  optCell_single_assignment 5 7 (some 0) rfl

theorem findSome?_none {α β : Type} (f : α → Option β) (l : List α)
    (h : ∀ x ∈ l, f x = none) : l.findSome? f = none := by
  induction l with
  | nil => rfl
  | cons a as ih =>
    simp only [List.findSome?, h a (List.mem_cons_self a as)]
    exact ih fun x hx => h x (List.mem_cons_of_mem a hx)

/-- C3: `ReferrerPolicy::parse_header` scans the comma-delimited tokens
from last to first: when the reversed token list starts with unrecognized
tokens `pre` followed by a token `t` naming policy `p`, the result is
`Ok(p)`; when no token at all is recognized the parse fails with a header
error; and `"same-origin, origin, foobar"` parses to `Origin` (the
rightmost recognized token, matched case-insensitively). -/
theorem referrerPolicy_rightmost (lines lines' : List (List Char))
    (pre post : List (List Char)) (t : List Char) (p : ReferrerPolicy)
    (hsplit : (fromCommaDelimited lines).reverse = pre ++ t :: post)
    (hpre : ∀ u ∈ pre, policyOfToken u = none)
    (ht : policyOfToken t = some p)
    (hnone : ∀ u ∈ fromCommaDelimited lines', policyOfToken u = none) :
    ReferrerPolicy.parseHeader lines = .ok p
  ∧ ReferrerPolicy.parseHeader lines' = .error ()
  ∧ ReferrerPolicy.parseHeader ["same-origin, origin, foobar".toList] =
      .ok .Origin
  ∧ ReferrerPolicy.parseHeader ["SAME-Origin".toList] = .ok .SameOrigin := by
  refine ⟨?_, ?_, rfl, rfl⟩
  · simp only [ReferrerPolicy.parseHeader, hsplit,
      findSome?_append_none policyOfToken pre (t :: post) hpre,
      findSome?_cons_some policyOfToken t post p ht]
  · have hrev : ∀ u ∈ (fromCommaDelimited lines').reverse,
        policyOfToken u = none := fun u hu =>
      hnone u (List.mem_reverse.mp hu)
    simp only [ReferrerPolicy.parseHeader,
      findSome?_none policyOfToken _ hrev]

/-- Witness for C3 on the spec's own example
`"same-origin, origin, foobar"`: the reversed token list is
`foobar, origin, same-origin`, with `foobar` unrecognized and `origin` the
first recognized token; `["foobar"]` alone fails. -/
theorem referrerPolicy_rightmost_w :
    ReferrerPolicy.parseHeader ["same-origin, origin, foobar".toList] =
      .ok ReferrerPolicy.Origin
  ∧ ReferrerPolicy.parseHeader ["foobar".toList] = .error ()
  ∧ ReferrerPolicy.parseHeader ["same-origin, origin, foobar".toList] =
      .ok .Origin
  ∧ ReferrerPolicy.parseHeader ["SAME-Origin".toList] = .ok .SameOrigin :=
  referrerPolicy_rightmost ["same-origin, origin, foobar".toList]
    ["foobar".toList] ["foobar".toList] ["same-origin".toList]
    "origin".toList ReferrerPolicy.Origin (by decide) (by decide)
    (by decide) (by decide)

/-- C5: encoding a quality item with the default quality 1000 emits no
`;q=` suffix at all; decoding an item with no `;q=` suffix — whether it
has no parameters (`';' ∉ l`) or only non-`q` parameters — yields quality
exactly 1000. -/
theorem quality_default_omission (item l : List Char) (hns : ';' ∉ l) :
    fmtQualityItem item 1000 = item
  ∧ decodeQualityItem l = some (trimChars l, 1000)
  ∧ decodeQualityItem "gzip; a=b".toList = some ("gzip".toList, 1000)
  ∧ fmtQualityItem "compress".toList 500 = "compress;q=0.5".toList := by
  refine ⟨by simp [fmtQualityItem], ?_, by decide, by decide⟩
  simp [decodeQualityItem, splitSep_not_mem ';' l hns, List.findSome?]

/-- Witness for C5 at the item `"gzip"`, which contains no `;`. -/
theorem quality_default_omission_w :
    fmtQualityItem "gzip".toList 1000 = "gzip".toList
  ∧ decodeQualityItem "gzip".toList =
      some (trimChars "gzip".toList, 1000)
  ∧ decodeQualityItem "gzip; a=b".toList = some ("gzip".toList, 1000)
  ∧ fmtQualityItem "compress".toList 500 = "compress;q=0.5".toList :=
  quality_default_omission "gzip".toList "gzip".toList (by decide)

/-- C6: list-decode tolerance of the zero-or-more list shape used by
`Accept-Encoding` and `TE`: an empty raw field decodes to the empty list,
consecutive commas produce no empty items (`"a,, b"` gives exactly
`["a", "b"]`), and a comma inside a quoted string does not split. -/
theorem list_decode_tolerance :
    fromCommaDelimited ["".toList] = []
  ∧ fromCommaDelimited [] = []
  ∧ fromCommaDelimited ["a,, b".toList] = ["a".toList, "b".toList]
  ∧ AcceptEncoding.parseHeader ["".toList] = []
  ∧ Te.parseHeader ["".toList] = []
  ∧ AcceptEncoding.parseHeader ["a,, b".toList] =
      [("a".toList, 1000), ("b".toList, 1000)]
  ∧ fromCommaDelimited ["x=\"a,b\", c".toList] =
      ["x=\"a,b\"".toList, "c".toList] := by
  decide

/-- C9: `LastEventId::parse_header` accepts exactly one line: a single
empty line yields the empty "reset" id, a raw field whose line count is
not one fails, a single non-empty valid-UTF-8 line decodes to its
contents, and a single non-empty invalid-UTF-8 line fails. -/
theorem lastEventId_parse (lines : List (List Nat)) (l1 l2 : List Nat)
    (hlen : lines.length ≠ 1) (h1 : l1 ≠ []) (hv1 : validUtf8 l1 = true)
    (h2 : l2 ≠ []) (hv2 : validUtf8 l2 = false) :
    LastEventId.parseHeader [[]] = .ok []
  ∧ LastEventId.parseHeader lines = .error ()
  ∧ LastEventId.parseHeader [l1] = .ok l1
  ∧ LastEventId.parseHeader [l2] = .error () := by
  refine ⟨rfl, ?_, ?_, ?_⟩
  · cases lines with
    | nil => rfl
    | cons x xs =>
      cases xs with
      | nil => exact absurd rfl hlen
      | cons y ys => rfl
  · cases l1 with
    | nil => exact absurd rfl h1
    | cons a as => simp [LastEventId.parseHeader, rawOne, hv1]
  · cases l2 with
    | nil => exact absurd rfl h2
    | cons a as => simp [LastEventId.parseHeader, rawOne, hv2]

/-- Witness for C9: no lines fail, the byte `"1"` is valid UTF-8 and
parses, the byte `0xFF` is invalid UTF-8 and fails. -/
theorem lastEventId_parse_w :
    LastEventId.parseHeader [[]] = .ok []
  ∧ LastEventId.parseHeader [] = .error ()
  ∧ LastEventId.parseHeader [[49]] = .ok [49]
  ∧ LastEventId.parseHeader [[255]] = .error () :=
  lastEventId_parse [] [49] [255] (by decide) (by decide) (by decide)
    (by decide) (by decide)

/-- C10: `AccessControlAllowCredentials::parse_header` succeeds exactly
when the raw field is one single line whose bytes ASCII-case-insensitively
equal `"true"`; zero lines, two lines of `"true"`, `"false"`, and
non-UTF-8 bytes all fail. -/
theorem accessControlAllowCredentials_parse (lines : List (List Nat)) :
    (AccessControlAllowCredentials.parseHeader lines = .ok () ↔
      ∃ l, lines = [l] ∧ l.map toLowerByte = trueBytes)
  ∧ AccessControlAllowCredentials.parseHeader [trueBytes] = .ok ()
  ∧ AccessControlAllowCredentials.parseHeader [[84, 114, 117, 101]] = .ok ()
  ∧ AccessControlAllowCredentials.parseHeader [[102, 97, 108, 115, 101]] =
      .error ()
  ∧ AccessControlAllowCredentials.parseHeader [trueBytes, trueBytes] =
      .error ()
  ∧ AccessControlAllowCredentials.parseHeader [] = .error ()
  ∧ AccessControlAllowCredentials.parseHeader
      [[217, 133, 216, 177, 216, 173, 216, 168, 216, 167]] = .error () := by
  refine ⟨?_, rfl, rfl, rfl, rfl, rfl, rfl⟩
  constructor
  · intro h
    cases lines with
    | nil => simp [AccessControlAllowCredentials.parseHeader, rawOne] at h
    | cons x xs =>
      cases xs with
      | nil =>
        refine ⟨x, rfl, ?_⟩
        by_contra hc
        simp [AccessControlAllowCredentials.parseHeader, rawOne, hc] at h
      | cons y ys =>
        simp [AccessControlAllowCredentials.parseHeader, rawOne] at h
  · rintro ⟨l, rfl, hl⟩
    simp [AccessControlAllowCredentials.parseHeader, rawOne, hl]

theorem mem_removeAll {m : CookieMap} {k : List Char}
    {p : List Char × List Char} (hp : p ∈ vmRemoveAll m k) :
    ¬ p.1 = k ∧ p ∈ m := by
  unfold vmRemoveAll at hp
  have h := List.mem_filter.mp hp
  exact ⟨of_decide_eq_true h.2, h.1⟩

/-- C8: `Cookie::set(k, v)` removes every entry with key `k` and appends
`(k, v)`: afterwards `get k` yields `Some v`, the entries with key `k` are
exactly the single `(k, v)`, and the entries with other keys are unchanged
in content and relative order. -/
theorem cookie_set_frame (m : CookieMap) (k v : List Char) :
    Cookie.get (Cookie.set m k v) k = some v
  ∧ (Cookie.set m k v).filter (fun p => p.1 = k) = [(k, v)]
  ∧ (Cookie.set m k v).filter (fun p => ¬ p.1 = k) =
      m.filter (fun p => ¬ p.1 = k) := by
  refine ⟨?_, ?_, ?_⟩
  · exact vmGet_append_last (vmRemoveAll m k) k v
      (fun p hp => (mem_removeAll hp).1)
  · show ((vmRemoveAll m k) ++ [(k, v)]).filter (fun p => p.1 = k) = [(k, v)]
    rw [List.filter_append]
    have hnil : (vmRemoveAll m k).filter (fun p => decide (p.1 = k)) = [] :=
      List.filter_eq_nil_iff.mpr fun p hp hdec =>
        (mem_removeAll hp).1 (of_decide_eq_true hdec)
    rw [hnil]
    simp
  · show ((vmRemoveAll m k) ++ [(k, v)]).filter (fun p => ¬ p.1 = k) =
      m.filter (fun p => ¬ p.1 = k)
    rw [List.filter_append]
    have hone : ([(k, v)] : CookieMap).filter
        (fun p => decide (¬ p.1 = k)) = [] := by simp
    rw [hone, List.append_nil]
    show (m.filter _).filter _ = m.filter _
    rw [List.filter_filter]
    apply List.filter_congr
    intro p _
    simp

theorem not_mem_cookieSeg {k v : List Char} (hk : ';' ∉ k) (hv : ';' ∉ v) :
    ';' ∉ k ++ '=' :: v := by
  intro hm
  rcases List.mem_append.mp hm with h | h
  · exact hk h
  · rcases List.mem_cons.mp h with h | h
    · exact absurd h (by decide)
    · exact hv h

theorem splitSep_cookieFmt (rest : CookieMap) :
    ∀ k v : List Char, ';' ∉ k → ';' ∉ v →
      (∀ p ∈ rest, ';' ∉ p.1 ∧ ';' ∉ p.2) →
      splitSep ';' (Cookie.fmt ((k, v) :: rest)) =
        (k ++ '=' :: v) :: cookieSegsRest rest := by
  induction rest with
  | nil =>
    intro k v hk hv _
    show splitSep ';' (k ++ '=' :: (v ++ [])) = [k ++ '=' :: v]
    rw [List.append_nil]
    exact splitSep_not_mem ';' _ (not_mem_cookieSeg hk hv)
  | cons q qs ih =>
    obtain ⟨k2, v2⟩ := q
    intro k v hk hv hrest
    have h2 := hrest (k2, v2) (List.mem_cons_self _ _)
    have hqs : ∀ p ∈ qs, ';' ∉ p.1 ∧ ';' ∉ p.2 :=
      fun p hp => hrest p (List.mem_cons_of_mem _ hp)
    have hx := ih k2 v2 h2.1 h2.2 hqs
    show splitSep ';'
        (k ++ '=' :: (v ++
          (';' :: ' ' :: (k2 ++ '=' :: (v2 ++ Cookie.fmtRest qs))))) = _
    have hshape : k ++ '=' :: (v ++
        (';' :: ' ' :: (k2 ++ '=' :: (v2 ++ Cookie.fmtRest qs)))) =
        (k ++ '=' :: v) ++
          (';' :: ' ' :: (k2 ++ '=' :: (v2 ++ Cookie.fmtRest qs))) := by
      simp
    rw [hshape, splitSep_append ';' _ _ (not_mem_cookieSeg hk hv),
      splitSep_cons_sep]
    have hsp : splitSep ';' (' ' :: (k2 ++ '=' :: (v2 ++ Cookie.fmtRest qs))) =
        (' ' :: (k2 ++ '=' :: v2)) :: cookieSegsRest qs := by
      rw [splitSep_cons_ne ';' ' ' _ (by decide)]
      rw [show (k2 ++ '=' :: (v2 ++ Cookie.fmtRest qs)) =
        Cookie.fmt ((k2, v2) :: qs) from rfl, hx]
      simp
    simp only [List.headI_cons, List.tail_cons, List.append_nil, hsp]
    rfl

theorem parseCookiePair_seg (k v : List Char) (hk : '=' ∉ k) :
    parseCookiePair (k ++ '=' :: v) = some (trimChars k, trimChars v) := by
  have hall : ∀ c ∈ k, (fun c => !decide (c = '=')) c = true := by
    intro c hc
    simp only [Bool.not_eq_true']
    exact decide_eq_false (fun h => hk (h ▸ hc))
  have hd : (k ++ '=' :: v).dropWhile (fun c => !decide (c = '=')) =
      '=' :: v := by
    rw [dropWhile_append_all k _ hall]
    simp [List.dropWhile_cons]
  have ht : (k ++ '=' :: v).takeWhile (fun c => !decide (c = '=')) = k := by
    rw [takeWhile_append_all k _ hall]
    simp [List.takeWhile_cons]
  simp [parseCookiePair, hd, ht]

theorem parseCookiePair_seg_sp (k v : List Char) (hk : '=' ∉ k) :
    parseCookiePair (' ' :: (k ++ '=' :: v)) =
      some (trimChars k, trimChars v) := by
  have hk' : '=' ∉ (' ' :: k) := by
    intro hm
    rcases List.mem_cons.mp hm with h | h
    · exact absurd h (by decide)
    · exact hk h
  have h := parseCookiePair_seg (' ' :: k) v hk'
  rw [List.cons_append, trimChars_cons_space] at h
  exact h

theorem foldl_cookieStep_segsRest (rest : CookieMap) :
    ∀ acc : CookieMap, (∀ p ∈ rest, cookieWf p) →
      List.foldl cookieStep acc (cookieSegsRest rest) =
        List.foldl (fun m p => vmInsert m p.1 p.2) acc rest := by
  induction rest with
  | nil => intro acc _; rfl
  | cons q qs ih =>
    obtain ⟨k2, v2⟩ := q
    intro acc hwf
    obtain ⟨hk2, _, _, ht2, hv2t⟩ := hwf (k2, v2) (List.mem_cons_self _ _)
    have hstep : cookieStep acc (' ' :: (k2 ++ '=' :: v2)) =
        vmInsert acc k2 v2 := by
      unfold cookieStep
      rw [parseCookiePair_seg_sp k2 v2 hk2, ht2, hv2t]
    simp only [cookieSegsRest, List.foldl_cons, hstep]
    exact ih (vmInsert acc k2 v2)
      (fun p hp => hwf p (List.mem_cons_of_mem _ hp))

theorem foldl_vmInsert_append (ps : CookieMap) :
    ∀ acc : CookieMap, (cookieKeys (acc ++ ps)).Nodup →
      List.foldl (fun m p => vmInsert m p.1 p.2) acc ps = acc ++ ps := by
  induction ps with
  | nil => intro acc _; simp
  | cons q qs ih =>
    intro acc hnd
    have hnd' := hnd
    rw [cookieKeys, List.map_append] at hnd'
    have hdisj := (List.nodup_append.mp hnd').2.2
    have hq : q.1 ∉ cookieKeys acc := by
      intro hmem
      exact hdisj hmem (by simp)
    simp only [List.foldl_cons, vmInsert_not_mem acc q.1 q.2 hq]
    have := ih (acc ++ [q]) (by
      rw [List.append_assoc, List.singleton_append]
      exact hnd)
    rw [this, List.append_assoc, List.singleton_append]

theorem vmGet_nodup (m : CookieMap) (hnd : (cookieKeys m).Nodup) :
    ∀ p ∈ m, vmGet m p.1 = some p.2 := by
  induction m with
  | nil => intro p hp; cases hp
  | cons q qs ih =>
    intro p hp
    have hnd' : (q.1 :: cookieKeys qs).Nodup := by
      simpa [cookieKeys] using hnd
    rcases List.mem_cons.mp hp with rfl | hp'
    · obtain ⟨k1, v1⟩ := p
      simp [vmGet]
    · obtain ⟨k1, v1⟩ := q
      have hne : ¬ k1 = p.1 := by
        intro he
        have hpmem : p.1 ∈ cookieKeys qs := List.mem_map_of_mem Prod.fst hp'
        exact (List.nodup_cons.mp hnd').1 (by rw [he]; exact hpmem)
      simp only [vmGet, if_neg hne]
      exact ih (List.nodup_cons.mp hnd').2 p hp'

/-- C4 counterexample: the round-trip `decode(encode(v)) == v` fails at
the very inputs the claim names.  Two distinct `PreferenceApplied` values
— one whose `Preference::Extension` carries parameters, one without —
have the same encoding (the formatter strips extension parameters), so no
decoder can map both encodings back; and a `Cookie` with the repeated key
`foo` appended encodes to `"foo=bar; foo=quux"`, which parses back (via
the deduplicating `vec_map.insert`) to a one-entry cookie that is not
`==` to the original. -/
theorem roundTrip_cex :
    PreferenceApplied.fmt [Preference.Extension "foo".toList "bar".toList
        [("bar".toList, "foo".toList)]] =
      PreferenceApplied.fmt
        [Preference.Extension "foo".toList "bar".toList []]
  ∧ ([Preference.Extension "foo".toList "bar".toList
        [("bar".toList, "foo".toList)]] ≠
      [Preference.Extension "foo".toList "bar".toList []])
  ∧ Cookie.parseHeader [Cookie.fmt
        [("foo".toList, "bar".toList), ("foo".toList, "quux".toList)]] =
      .ok [("foo".toList, "quux".toList)]
  ∧ cookieEq [("foo".toList, "quux".toList)]
      [("foo".toList, "bar".toList), ("foo".toList, "quux".toList)] =
      false :=
  ⟨by decide, by decide, rfl, by decide⟩

/-- C4 amended: the round-trip `decode(encode(v)) == v` holds for values
whose encoding is canonical; for `Cookie` this means a non-empty entry
list with pairwise-distinct keys whose keys contain no `=` or `;`, whose
values contain no `;`, and whose keys and values carry no surrounding
whitespace.  For such `v`, `parse_header` of the formatted line returns
exactly `v`, and `v == v` under the `PartialEq` of cookie.rs.  (Values
excluded by the counterexample — cookies with repeated keys, preferences
with extension parameters — do not round-trip.) -/
theorem cookie_roundTrip (v : CookieMap) (hne : v ≠ [])
    (hnd : (cookieKeys v).Nodup) (hwf : ∀ p ∈ v, cookieWf p) :
    Cookie.parseHeader [Cookie.fmt v] = .ok v ∧ cookieEq v v = true := by
  constructor
  · cases v with
    | nil => exact absurd rfl hne
    | cons p rest =>
      obtain ⟨k, val⟩ := p
      obtain ⟨hkeq, hks, hvs, htk, htv⟩ :=
        hwf (k, val) (List.mem_cons_self _ _)
      have hsemis : ∀ q ∈ rest, ';' ∉ q.1 ∧ ';' ∉ q.2 :=
        fun q hq => ⟨(hwf q (List.mem_cons_of_mem _ hq)).2.1,
          (hwf q (List.mem_cons_of_mem _ hq)).2.2.1⟩
      have hm : Cookie.parseLine [] (Cookie.fmt ((k, val) :: rest)) =
          (k, val) :: rest := by
        unfold Cookie.parseLine
        rw [splitSep_cookieFmt rest k val hks hvs hsemis]
        have hstep : cookieStep [] (k ++ '=' :: val) = [(k, val)] := by
          unfold cookieStep
          rw [parseCookiePair_seg k val hkeq, htk, htv]
          rfl
        simp only [List.foldl_cons, hstep]
        rw [foldl_cookieStep_segsRest rest [(k, val)]
          (fun q hq => hwf q (List.mem_cons_of_mem _ hq))]
        have := foldl_vmInsert_append rest [(k, val)]
          (by rw [List.singleton_append]; exact hnd)
        rw [this, List.singleton_append]
      simp only [Cookie.parseHeader, List.foldl_cons, List.foldl_nil, hm]
      simp
  · unfold cookieEq
    rw [if_pos rfl]
    exact List.all_eq_true.mpr
      (fun p hp => decide_eq_true (vmGet_nodup v hnd p hp))

/-- Witness for C4's amended theorem at the two-entry cookie
`foo=bar; baz=qux`. -/
theorem cookie_roundTrip_w :
    Cookie.parseHeader [Cookie.fmt
        [("foo".toList, "bar".toList), ("baz".toList, "qux".toList)]] =
      .ok [("foo".toList, "bar".toList), ("baz".toList, "qux".toList)]
  ∧ cookieEq [("foo".toList, "bar".toList), ("baz".toList, "qux".toList)]
      [("foo".toList, "bar".toList), ("baz".toList, "qux".toList)] =
      true :=
  cookie_roundTrip
    [("foo".toList, "bar".toList), ("baz".toList, "qux".toList)]
    (by decide) (by decide) (by decide)

end Hyperx
